import Mathlib

/-!
Verification of the write-batch subsystem (`db/write_batch.cc`).

A `WriteBatch` is a byte buffer: an 8-byte little-endian sequence number,
a 4-byte little-endian count, then `count` concatenated records.  We model
bytes as natural numbers; every place the C++ code reads a `char` from the
buffer we reduce modulo 256, every place a value is stored into a fixed-width
machine integer we reduce modulo the corresponding power of two.
-/

namespace LevelDB

/-- Modelled from the spec: the four record-tag values (`ValueType` lives in
`db/dbformat.h`, outside this core).  The spec requires four fixed, distinct
byte values; deletion and plain value match the comment at the top of
`write_batch.cc`. -/
def kTypeDeletion : Nat := 0

/-- Tag byte of a plain value record. -/
def kTypeValue : Nat := 1

/-- Tag byte of a value record whose expiry is resolved at write time. -/
def kTypeValueWriteTime : Nat := 2

/-- Tag byte of a value record carrying a caller-supplied expiry. -/
def kTypeValueExplicitExpiry : Nat := 3

/-- The 12-byte header: 8-byte sequence then 4-byte count (`kHeader`). -/
def kHeader : Nat := 12

/-- Modelled from the spec: `PutVarint32`/`PutVarint64` from `util/coding.cc`
(outside this core): base-128 little-endian with a continuation bit on every
byte but the last. -/
def putVarint (v : Nat) : List Nat :=
  if h : v < 128 then [v] else (v % 128 + 128) :: putVarint (v / 128)
termination_by v
decreasing_by exact Nat.div_lt_self (by omega) (by omega)

/-- Modelled from the spec: the shared loop of `GetVarint32`/`GetVarint64`
from `util/coding.cc` (outside this core).  `maxShift` is 28 for the 32-bit
reader and 63 for the 64-bit reader; the accumulated result is truncated to
`wordBits` bits exactly as the C++ fixed-width accumulator is.  The 7-bit
groups occupy disjoint bit ranges, so accumulating with `+` and truncating
once at the end agrees with the per-step `|=` into a fixed-width integer. -/
def getVarint (maxShift wordBits : Nat) : List Nat → Nat → Nat → Option (Nat × List Nat)
  | [], _, _ => none
  | b :: rest, shift, acc =>
    if maxShift < shift then none
    else if 128 ≤ b % 256 then
      getVarint maxShift wordBits rest (shift + 7) (acc + b % 256 % 128 * 2 ^ shift)
    else some ((acc + b % 256 * 2 ^ shift) % 2 ^ wordBits, rest)

/-- Modelled from the spec: `GetVarint32` (`util/coding.cc`). -/
def GetVarint32 (input : List Nat) : Option (Nat × List Nat) :=
  getVarint 28 32 input 0 0

/-- Modelled from the spec: `GetVarint64` (`util/coding.cc`). -/
def GetVarint64 (input : List Nat) : Option (Nat × List Nat) :=
  getVarint 63 64 input 0 0

/-- Modelled from the spec: `PutLengthPrefixedSlice` (`util/coding.cc`):
varint32 length followed by the raw bytes; the `size_t` length is passed
through the `uint32` parameter of `PutVarint32`. -/
def PutLengthPrefixedSlice (s : List Nat) : List Nat :=
  putVarint (s.length % 2 ^ 32) ++ s

/-- Modelled from the spec: `GetLengthPrefixedSlice` (`util/coding.cc`):
read a varint32 length, succeed iff at least that many bytes remain, and
split them off. -/
def GetLengthPrefixedSlice (input : List Nat) : Option (List Nat × List Nat) :=
  match GetVarint32 input with
  | some (len, rest) =>
    if len ≤ rest.length then some (rest.take len, rest.drop len) else none
  | none => none

/-- Modelled from the spec: `EncodeFixed32` (`util/coding.cc`),
little-endian. -/
def encodeFixed32 (n : Nat) : List Nat :=
  [n % 256, n / 2 ^ 8 % 256, n / 2 ^ 16 % 256, n / 2 ^ 24 % 256]

/-- Modelled from the spec: `EncodeFixed64` (`util/coding.cc`),
little-endian. -/
def encodeFixed64 (n : Nat) : List Nat :=
  [n % 256, n / 2 ^ 8 % 256, n / 2 ^ 16 % 256, n / 2 ^ 24 % 256,
   n / 2 ^ 32 % 256, n / 2 ^ 40 % 256, n / 2 ^ 48 % 256, n / 2 ^ 56 % 256]

/-- Modelled from the spec: `DecodeFixed32` (`util/coding.cc`); each of the
four loads is a byte load, hence the reduction modulo 256. -/
def decodeFixed32 (l : List Nat) : Nat :=
  l.getD 0 0 % 256 + l.getD 1 0 % 256 * 2 ^ 8 +
  l.getD 2 0 % 256 * 2 ^ 16 + l.getD 3 0 % 256 * 2 ^ 24

/-- Modelled from the spec: `DecodeFixed64` (`util/coding.cc`). -/
def decodeFixed64 (l : List Nat) : Nat :=
  l.getD 0 0 % 256 + l.getD 1 0 % 256 * 2 ^ 8 +
  l.getD 2 0 % 256 * 2 ^ 16 + l.getD 3 0 % 256 * 2 ^ 24 +
  l.getD 4 0 % 256 * 2 ^ 32 + l.getD 5 0 % 256 * 2 ^ 40 +
  l.getD 6 0 % 256 * 2 ^ 48 + l.getD 7 0 % 256 * 2 ^ 56

/-- The batch: `WriteBatch::rep_`, a byte string. -/
structure WriteBatch where
  rep : List Nat
deriving DecidableEq

/-- Model of `WriteBatch::Clear`: reset to twelve zero bytes (`rep_.clear()` then
`rep_.resize(kHeader)`, which zero-fills). -/
def clearBatch : WriteBatch :=
  ⟨List.replicate kHeader 0⟩

/-- Model of `WriteBatchInternal::Count`: decode the fixed32 at offset 8. -/
def WriteBatchInternal.Count (b : WriteBatch) : Nat :=
  decodeFixed32 (b.rep.drop 8)

/-- Model of `WriteBatchInternal::SetCount`: overwrite the four bytes at offset 8
(the buffer is at least `kHeader` bytes in every reachable state). -/
def WriteBatchInternal.SetCount (b : WriteBatch) (n : Nat) : WriteBatch :=
  ⟨b.rep.take 8 ++ encodeFixed32 n ++ b.rep.drop 12⟩

/-- Model of `WriteBatchInternal::Sequence`: decode the fixed64 at offset 0. -/
def WriteBatchInternal.Sequence (b : WriteBatch) : Nat :=
  decodeFixed64 b.rep

/-- Model of `WriteBatchInternal::SetSequence`: overwrite the eight bytes at
offset 0. -/
def WriteBatchInternal.SetSequence (b : WriteBatch) (seq : Nat) : WriteBatch :=
  ⟨encodeFixed64 seq ++ b.rep.drop 8⟩

/-- Modelled from the spec: `KeyMetaData` (`db/dbformat.h`, outside this
core): caller-supplied type and expiry for a put, defaulting to a plain
value with no expiry. -/
structure KeyMetaData where
  m_Type : Nat := kTypeValue
  m_Expiry : Nat := 0
deriving DecidableEq

/-- The record bytes appended by `WriteBatch::Put` after the count bump:
the type byte verbatim (a `char` store, hence modulo 256), the key as a
varstring, for the two expiry-bearing types a varint64 expiry — where a
write-time put with expiry 0 is resolved to `GetTimeMinutes()`, passed here
as `now` — and then the value as a varstring, unconditionally. -/
def putRecord (key value : List Nat) (meta : KeyMetaData) (now : Nat) : List Nat :=
  let expiry := if meta.m_Type = kTypeValueWriteTime ∧ meta.m_Expiry = 0 then now
                else meta.m_Expiry
  [meta.m_Type % 256] ++ PutLengthPrefixedSlice key ++
    (if meta.m_Type = kTypeValueExplicitExpiry ∨ meta.m_Type = kTypeValueWriteTime
     then putVarint (expiry % 2 ^ 64) else []) ++
    PutLengthPrefixedSlice value

/-- The record bytes appended by `WriteBatch::Delete` after the count bump:
the deletion tag and the key as a varstring. -/
def deleteRecord (key : List Nat) : List Nat :=
  [kTypeDeletion] ++ PutLengthPrefixedSlice key

/-- Model of `WriteBatch::Put(key, value, meta)`: bump the count, then append the
record bytes.  `now` stands for the external clock `GetTimeMinutes()`,
read only when a write-time-expiry put carries expiry 0. -/
def WriteBatch.Put (b : WriteBatch) (key value : List Nat) (meta : KeyMetaData)
    (now : Nat) : WriteBatch :=
  ⟨(WriteBatchInternal.SetCount b (WriteBatchInternal.Count b + 1)).rep ++
    putRecord key value meta now⟩

/-- Model of `WriteBatch::Delete(key)`: bump the count, then append the deletion
record. -/
def WriteBatch.Delete (b : WriteBatch) (key : List Nat) : WriteBatch :=
  ⟨(WriteBatchInternal.SetCount b (WriteBatchInternal.Count b + 1)).rep ++
    deleteRecord key⟩

/-- One call made by `WriteBatch::Iterate` on its `Handler`. -/
inductive HandlerCall where
  | Put (key value : List Nat) (type expiry : Nat)
  | Delete (key : List Nat)
deriving DecidableEq

/-- The reasons of the `Status::Corruption` values produced in
`write_batch.cc`, one constructor per message string. -/
inductive CorruptReason where
  | tooSmall
  | badPut
  | badDelete
  | badExpiry
  | unknownTag
  | wrongCount
deriving DecidableEq

/-- Model of `leveldb::Status` as used in `write_batch.cc`: OK or a corruption. -/
inductive Status where
  | ok
  | Corruption (reason : CorruptReason)
deriving DecidableEq

/-- One iteration of the `while` loop in `WriteBatch::Iterate`, after the
tag byte has been consumed: the `switch` over the tag.  Returns the handler
call to make and the remaining input, or the corruption reason. -/
def decodeRecord (tag : Nat) (input : List Nat) :
    Except CorruptReason (HandlerCall × List Nat) :=
  if tag = kTypeValue then
    match GetLengthPrefixedSlice input with
    | some (key, r1) =>
      match GetLengthPrefixedSlice r1 with
      | some (value, r2) => Except.ok (HandlerCall.Put key value kTypeValue 0, r2)
      | none => Except.error CorruptReason.badPut
    | none => Except.error CorruptReason.badPut
  else if tag = kTypeDeletion then
    match GetLengthPrefixedSlice input with
    | some (key, r1) => Except.ok (HandlerCall.Delete key, r1)
    | none => Except.error CorruptReason.badDelete
  else if tag = kTypeValueWriteTime ∨ tag = kTypeValueExplicitExpiry then
    match GetLengthPrefixedSlice input with
    | some (key, r1) =>
      match GetVarint64 r1 with
      | some (expiry, r2) =>
        match GetLengthPrefixedSlice r2 with
        | some (value, r3) => Except.ok (HandlerCall.Put key value tag expiry, r3)
        | none => Except.error CorruptReason.badExpiry
      | none => Except.error CorruptReason.badExpiry
    | none => Except.error CorruptReason.badExpiry
  else
    Except.error CorruptReason.unknownTag

/-- The `while (!input.empty())` loop of `WriteBatch::Iterate`: the status it
ends with, paired with the handler calls made, in order.  Calls made before
a corruption is discovered are kept: the handler has already seen them. -/
def iterateLoop : List Nat → Status × List HandlerCall
  | [] => (Status.ok, [])
  | b :: rest =>
    match h : decodeRecord (b % 256) rest with
    | Except.error r => (Status.Corruption r, [])
    | Except.ok (call, rest') =>
      let p := iterateLoop rest'
      (p.1, call :: p.2)
termination_by l => l.length
decreasing_by
  have hv : ∀ (ms wb : Nat) (l : List Nat) (s a n : Nat) (r : List Nat),
      getVarint ms wb l s a = some (n, r) → r.length ≤ l.length := by
    intro ms wb l
    induction l with
    | nil => intro s a n r hg; simp [getVarint] at hg
    | cons x t ih =>
      intro s a n r hg
      simp only [getVarint] at hg
      split at hg
      · exact absurd hg (by simp)
      · split at hg
        · exact Nat.le_trans (ih _ _ _ _ hg) (by simp)
        · simp only [Option.some.injEq, Prod.mk.injEq] at hg
          simp [← hg.2]
  have hlps : ∀ (l s : List Nat) (r : List Nat),
      GetLengthPrefixedSlice l = some (s, r) → r.length ≤ l.length := by
    intro l s r hg
    unfold GetLengthPrefixedSlice at hg
    split at hg
    case h_2 => exact absurd hg (by simp)
    case h_1 len rest heq =>
      split at hg
      · simp only [Option.some.injEq, Prod.mk.injEq] at hg
        have hrest := hv 28 32 l 0 0 len rest heq
        have h2 : (rest.drop len).length ≤ rest.length := by simp
        rw [← hg.2]
        omega
      · exact absurd hg (by simp)
  have hv64 : ∀ (l : List Nat) (n : Nat) (r : List Nat),
      GetVarint64 l = some (n, r) → r.length ≤ l.length := by
    intro l n r hg
    exact hv 63 64 l 0 0 n r hg
  simp only [List.length_cons]
  have hd : rest'.length ≤ rest.length := by
    unfold decodeRecord at h
    split at h
    · split at h
      case h_2 => exact absurd h (by simp)
      case h_1 key r1 heq1 =>
        split at h
        case h_2 => exact absurd h (by simp)
        case h_1 value r2 heq2 =>
          simp only [Except.ok.injEq, Prod.mk.injEq] at h
          rw [← h.2]
          exact Nat.le_trans (hlps _ _ _ heq2) (hlps _ _ _ heq1)
    · split at h
      · split at h
        case h_2 => exact absurd h (by simp)
        case h_1 key r1 heq1 =>
          simp only [Except.ok.injEq, Prod.mk.injEq] at h
          rw [← h.2]
          exact hlps _ _ _ heq1
      · split at h
        · split at h
          case h_2 => exact absurd h (by simp)
          case h_1 key r1 heq1 =>
            split at h
            case h_2 => exact absurd h (by simp)
            case h_1 expiry r2 heq2 =>
              split at h
              case h_2 => exact absurd h (by simp)
              case h_1 value r3 heq3 =>
                simp only [Except.ok.injEq, Prod.mk.injEq] at h
                rw [← h.2]
                exact Nat.le_trans (hlps _ _ _ heq3)
                  (Nat.le_trans (hv64 _ _ _ heq2) (hlps _ _ _ heq1))
        · exact absurd h (by simp)
  omega

/-- Model of `WriteBatch::Iterate(handler)`: reject buffers shorter than the header,
replay the record region, and after a clean pass cross-check the number of
decoded records against the header count.  Returns the final status and the
handler calls made. -/
def WriteBatch.Iterate (b : WriteBatch) : Status × List HandlerCall :=
  if b.rep.length < kHeader then (Status.Corruption CorruptReason.tooSmall, [])
  else
    let p := iterateLoop (b.rep.drop kHeader)
    match p.1 with
    | Status.ok =>
      if p.2.length ≠ WriteBatchInternal.Count b then
        (Status.Corruption CorruptReason.wrongCount, p.2)
      else (Status.ok, p.2)
    | s => (s, p.2)

/-- One row of the external in-memory index: the arguments of one
`MemTable::Add(sequence, type, key, value, expiry)` call. -/
structure MemEntry where
  seq : Nat
  type : Nat
  key : List Nat
  value : List Nat
  expiry : Nat
deriving DecidableEq

/-- The `MemTableInserter` handler: replay a list of handler calls,
assigning each one the next sequence number (a `uint64`, hence the modulus).
`cb` is the optional expiry-module hook `MemTableInserterCallback`, which
may rewrite the effective type and expiry of a put; deletes bypass it and
are added as `(seq, kTypeDeletion, key, empty, 0)`. -/
def MemTableInserter.run (cb : Option (List Nat → List Nat → Nat → Nat → Nat × Nat)) :
    Nat → List HandlerCall → List MemEntry
  | _, [] => []
  | seq, HandlerCall.Put key value type expiry :: rest =>
    let te := match cb with
      | none => (type, expiry)
      | some f => f key value type expiry
    ⟨seq, te.1, key, value, te.2⟩ :: MemTableInserter.run cb ((seq + 1) % 2 ^ 64) rest
  | seq, HandlerCall.Delete key :: rest =>
    ⟨seq, kTypeDeletion, key, [], 0⟩ :: MemTableInserter.run cb ((seq + 1) % 2 ^ 64) rest

/-- Model of `WriteBatchInternal::InsertInto`: run `Iterate` with a `MemTableInserter`
whose sequence starts at the batch's header sequence; returns the status of
`Iterate` together with the index rows added (rows added before a corruption
is discovered stay added). -/
def WriteBatchInternal.InsertInto (b : WriteBatch)
    (cb : Option (List Nat → List Nat → Nat → Nat → Nat × Nat)) :
    Status × List MemEntry :=
  let p := b.Iterate
  (p.1, MemTableInserter.run cb (WriteBatchInternal.Sequence b) p.2)

/-- Model of `WriteBatchInternal::SetContents`: replace the buffer wholesale.  The
C++ `assert(contents.size() >= kHeader)` is a caller contract, not a checked
error. -/
def WriteBatchInternal.SetContents (contents : List Nat) : WriteBatch :=
  ⟨contents⟩

/-- Model of `WriteBatchInternal::Append`: sum the counts into `dst`'s header, then
append `src`'s bytes past its header, unchanged.  `src` is read only. -/
def WriteBatchInternal.Append (dst src : WriteBatch) : WriteBatch :=
  ⟨(WriteBatchInternal.SetCount dst
      (WriteBatchInternal.Count dst + WriteBatchInternal.Count src)).rep ++
    src.rep.drop kHeader⟩

/-- One mutating call on a batch: `Put(key, value, meta)` (with `now` the
clock value `GetTimeMinutes()` would return during that call) or
`Delete(key)`. -/
inductive Op where
  | put (key value : List Nat) (meta : KeyMetaData) (now : Nat)
  | del (key : List Nat)
deriving DecidableEq

/-- Apply one call to a batch. -/
def applyOp (b : WriteBatch) : Op → WriteBatch
  | Op.put key value meta now => b.Put key value meta now
  | Op.del key => b.Delete key

/-- Apply a sequence of calls to a batch, left to right. -/
def applyOps (b : WriteBatch) : List Op → WriteBatch
  | [] => b
  | op :: rest => applyOps (applyOp b op) rest

/-- The record bytes a call appends. -/
def encodeOp : Op → List Nat
  | Op.put key value meta now => putRecord key value meta now
  | Op.del key => deleteRecord key

/-- The record region produced by a sequence of calls. -/
def opsData (ops : List Op) : List Nat :=
  (ops.map encodeOp).flatten

/-- The handler call `Iterate` makes for the record a call encoded: a plain
value replays with expiry 0, an expiry-bearing put replays with the expiry
that was encoded (the clock value if a write-time put carried expiry 0), a
delete replays as a delete. -/
def expectedCall : Op → HandlerCall
  | Op.put key value meta now =>
    if meta.m_Type = kTypeValue then HandlerCall.Put key value kTypeValue 0
    else HandlerCall.Put key value meta.m_Type
      (if meta.m_Type = kTypeValueWriteTime ∧ meta.m_Expiry = 0 then now
       else meta.m_Expiry)
  | Op.del key => HandlerCall.Delete key

/-- Byte offsets of record boundaries (starts and final end) in a buffer
whose record region starts at `pos` and holds the given calls' records. -/
def recordBoundaries : Nat → List Op → List Nat
  | pos, [] => [pos]
  | pos, op :: rest => pos :: recordBoundaries (pos + (encodeOp op).length) rest

/-- A call the C++ type system could make: the put type is one of the three
value-bearing tags, expiry and clock fit in a `uint64`, and key and value
lengths fit in a `uint32` (sizes are encoded through `PutVarint32`). -/
def Op.wf : Op → Prop
  | Op.put key value meta now =>
    (meta.m_Type = kTypeValue ∨ meta.m_Type = kTypeValueWriteTime ∨
      meta.m_Type = kTypeValueExplicitExpiry) ∧
    meta.m_Expiry < 2 ^ 64 ∧ now < 2 ^ 64 ∧
    key.length < 2 ^ 32 ∧ value.length < 2 ^ 32
  | Op.del key => key.length < 2 ^ 32

instance : DecidablePred Op.wf := fun op => by
  cases op <;> simp only [Op.wf] <;> infer_instance

theorem putVarint_ne_nil (v : Nat) : putVarint v ≠ [] := by
  unfold putVarint; split <;> simp

theorem putVarint_mem_lt_256 (v : Nat) : ∀ b ∈ putVarint v, b < 256 := by
  induction v using Nat.strong_induction_on with
  | _ v ih =>
    unfold putVarint
    split
    · intro b hb
      simp only [List.mem_singleton] at hb
      omega
    · intro b hb
      simp only [List.mem_cons] at hb
      rcases hb with rfl | h
      · omega
      · exact ih (v / 128) (Nat.div_lt_self (by omega) (by omega)) b h

theorem putVarint_take_big (v : Nat) : ∀ j, j < (putVarint v).length →
    ∀ b ∈ (putVarint v).take j, 128 ≤ b ∧ b < 256 := by
  induction v using Nat.strong_induction_on with
  | _ v ih =>
    intro j hj b hb
    by_cases h : v < 128
    · unfold putVarint at hj hb
      rw [dif_pos h] at hj hb
      simp only [List.length_singleton] at hj
      have hj0 : j = 0 := by omega
      subst hj0
      simp at hb
    · unfold putVarint at hj hb
      rw [dif_neg h] at hj hb
      cases j with
      | zero => simp at hb
      | succ j' =>
        simp only [List.take_succ_cons, List.mem_cons] at hb
        rcases hb with rfl | hb'
        · omega
        · exact ih (v / 128) (Nat.div_lt_self (by omega) (by omega)) j'
            (by simp at hj; omega) b hb'


theorem getVarint_none_of_big (ms wb : Nat) (l : List Nat)
    (hl : ∀ b ∈ l, 128 ≤ b ∧ b < 256) : ∀ s a, getVarint ms wb l s a = none := by
  induction l with
  | nil => intro s a; rfl
  | cons b t ih =>
    intro s a
    have hb := hl b (by simp)
    simp only [getVarint]
    split
    · rfl
    · rw [if_pos (by omega)]
      exact ih (fun x hx => hl x (by simp [hx])) _ _

theorem getVarint_putVarint_take (ms wb v j : Nat) (hj : j < (putVarint v).length)
    (s a : Nat) : getVarint ms wb ((putVarint v).take j) s a = none :=
  getVarint_none_of_big ms wb _ (putVarint_take_big v j hj) s a

theorem getVarint_putVarint (ms wb : Nat) (hms : 7 ∣ ms) :
    ∀ v s a (t : List Nat), 7 ∣ s → s ≤ ms → v < 2 ^ (ms + 7 - s) →
    getVarint ms wb (putVarint v ++ t) s a = some ((a + v * 2 ^ s) % 2 ^ wb, t) := by
  intro v
  induction v using Nat.strong_induction_on with
  | _ v ih =>
    intro s a t h7 hs hv
    by_cases h : v < 128
    · unfold putVarint
      rw [dif_pos h]
      simp only [List.cons_append, List.nil_append, getVarint]
      rw [if_neg (by omega), if_neg (by omega)]
      simp [Nat.mod_eq_of_lt (show v < 256 by omega)]
    · unfold putVarint
      rw [dif_neg h]
      simp only [List.cons_append, getVarint]
      have hsm : s < ms := by
        have h27 : (2 : Nat) ^ 7 ≤ v := by omega
        have : (2 : Nat) ^ 7 < 2 ^ (ms + 7 - s) := lt_of_le_of_lt h27 hv
        have h7lt : 7 < ms + 7 - s := by
          exact (Nat.pow_lt_pow_iff_right (by omega)).mp this
        omega
      have hs7 : s + 7 ≤ ms := by omega
      rw [if_neg (by omega), if_pos (by omega)]
      have hmod1 : (v % 128 + 128) % 256 = v % 128 + 128 := Nat.mod_eq_of_lt (by omega)
      rw [hmod1]
      have hmod2 : (v % 128 + 128) % 128 = v % 128 := by omega
      rw [hmod2]
      have hrec := ih (v / 128) (Nat.div_lt_self (by omega) (by omega)) (s + 7)
        (a + v % 128 * 2 ^ s) t (by omega) hs7
        (by
          have : v / 128 < 2 ^ (ms - s) := by
            rw [Nat.div_lt_iff_lt_mul (by omega : (0:Nat) < 128)]
            calc v < 2 ^ (ms + 7 - s) := hv
            _ = 2 ^ (ms - s) * 128 := by
              rw [show ms + 7 - s = (ms - s) + 7 by omega, pow_add]; norm_num
          simpa [show ms + 7 - (s + 7) = ms - s by omega] using this)
      simp only [List.append_eq]
      have hprod : v % 128 * 2 ^ s + v / 128 * 2 ^ (s + 7) = v * 2 ^ s := by
        rw [pow_add, show (2:Nat) ^ 7 = 128 by norm_num]
        calc v % 128 * 2 ^ s + v / 128 * (2 ^ s * 128)
            = (v % 128 + 128 * (v / 128)) * 2 ^ s := by ring
          _ = v * 2 ^ s := by rw [Nat.mod_add_div]
      have hva : a + v % 128 * 2 ^ s + v / 128 * 2 ^ (s + 7) = a + v * 2 ^ s := by omega
      rw [hrec, hva]


theorem GetVarint32_putVarint (v : Nat) (hv : v < 2 ^ 32) (t : List Nat) :
    GetVarint32 (putVarint v ++ t) = some (v, t) := by
  unfold GetVarint32
  rw [getVarint_putVarint 28 32 (by norm_num) v 0 0 t (by norm_num) (by norm_num)
    (lt_of_lt_of_le hv (by norm_num : (2:Nat) ^ 32 ≤ 2 ^ (28 + 7 - 0)))]
  simp only [pow_zero, mul_one, Nat.zero_add]
  rw [Nat.mod_eq_of_lt hv]

theorem GetVarint64_putVarint (v : Nat) (hv : v < 2 ^ 64) (t : List Nat) :
    GetVarint64 (putVarint v ++ t) = some (v, t) := by
  unfold GetVarint64
  rw [getVarint_putVarint 63 64 (by norm_num) v 0 0 t (by norm_num) (by norm_num)
    (lt_of_lt_of_le hv (by norm_num : (2:Nat) ^ 64 ≤ 2 ^ (63 + 7 - 0)))]
  simp only [pow_zero, mul_one, Nat.zero_add]
  rw [Nat.mod_eq_of_lt hv]

theorem GetLengthPrefixedSlice_roundtrip (s t : List Nat) (hs : s.length < 2 ^ 32) :
    GetLengthPrefixedSlice (PutLengthPrefixedSlice s ++ t) = some (s, t) := by
  unfold PutLengthPrefixedSlice GetLengthPrefixedSlice
  rw [List.append_assoc, Nat.mod_eq_of_lt hs, GetVarint32_putVarint s.length hs (s ++ t)]
  simp [List.take_left, List.drop_left]

theorem GetLengthPrefixedSlice_take_none (s : List Nat) (hs : s.length < 2 ^ 32)
    (j : Nat) (hj : j < (PutLengthPrefixedSlice s).length) :
    GetLengthPrefixedSlice ((PutLengthPrefixedSlice s).take j) = none := by
  unfold PutLengthPrefixedSlice at hj ⊢
  rw [Nat.mod_eq_of_lt hs] at hj ⊢
  by_cases h : j < (putVarint s.length).length
  · rw [List.take_append_of_le_length (le_of_lt h)]
    unfold GetLengthPrefixedSlice GetVarint32
    rw [getVarint_putVarint_take 28 32 s.length j h 0 0]
  · have hj' : j - (putVarint s.length).length < s.length := by
      simp only [List.length_append] at hj
      omega
    rw [List.take_append_eq_append_take,
      List.take_of_length_le (by omega : (putVarint s.length).length ≤ j)]
    unfold GetLengthPrefixedSlice GetVarint32
    rw [getVarint_putVarint 28 32 (by norm_num) s.length 0 0 _ (by norm_num) (by norm_num)
      (lt_of_lt_of_le hs (by norm_num))]
    simp only [Nat.mod_eq_of_lt hs]
    rw [if_neg (by
      rw [List.length_take]
      omega)]

theorem getVarint_append (ms wb : Nat) (l : List Nat) :
    ∀ (s a n : Nat) (r t : List Nat), getVarint ms wb l s a = some (n, r) →
    getVarint ms wb (l ++ t) s a = some (n, r ++ t) := by
  induction l with
  | nil => intro s a n r t h; simp [getVarint] at h
  | cons b u ih =>
    intro s a n r t h
    simp only [getVarint, List.cons_append] at h ⊢
    split at h
    · exact absurd h (by simp)
    · split at h
      · rw [if_neg (by omega), if_pos (by omega)]
        exact ih _ _ _ _ _ h
      · simp only [Option.some.injEq, Prod.mk.injEq] at h
        rw [if_neg (by omega), if_neg (by omega)]
        simp [h.1, ← h.2]

theorem GetLengthPrefixedSlice_append (l s r t : List Nat)
    (h : GetLengthPrefixedSlice l = some (s, r)) :
    GetLengthPrefixedSlice (l ++ t) = some (s, r ++ t) := by
  unfold GetLengthPrefixedSlice GetVarint32 at h ⊢
  split at h
  case h_2 => exact absurd h (by simp)
  case h_1 len rest heq =>
    split at h
    case isFalse => exact absurd h (by simp)
    case isTrue hle =>
      simp only [Option.some.injEq, Prod.mk.injEq] at h
      rw [getVarint_append 28 32 l 0 0 len rest t heq]
      dsimp only
      rw [if_pos (by simp only [List.length_append]; omega)]
      rw [List.take_append_of_le_length hle, List.drop_append_of_le_length hle]
      simp [h.1, ← h.2]

theorem getVarint_length_le (ms wb : Nat) (l : List Nat) :
    ∀ (s a n : Nat) (r : List Nat), getVarint ms wb l s a = some (n, r) →
    r.length ≤ l.length := by
  induction l with
  | nil => intro s a n r hg; simp [getVarint] at hg
  | cons x t ih =>
    intro s a n r hg
    simp only [getVarint] at hg
    split at hg
    · exact absurd hg (by simp)
    · split at hg
      · exact Nat.le_trans (ih _ _ _ _ hg) (by simp)
      · simp only [Option.some.injEq, Prod.mk.injEq] at hg
        simp [← hg.2]

theorem GetLengthPrefixedSlice_length_le (l s r : List Nat)
    (h : GetLengthPrefixedSlice l = some (s, r)) : r.length ≤ l.length := by
  unfold GetLengthPrefixedSlice at h
  split at h
  case h_2 => exact absurd h (by simp)
  case h_1 len rest heq =>
    split at h
    · simp only [Option.some.injEq, Prod.mk.injEq] at h
      have hrest := getVarint_length_le 28 32 l 0 0 len rest heq
      have h2 : (rest.drop len).length ≤ rest.length := by simp
      rw [← h.2]
      omega
    · exact absurd h (by simp)

theorem decodeRecord_length_le (tag : Nat) (input : List Nat) (c : HandlerCall)
    (r : List Nat) (h : decodeRecord tag input = Except.ok (c, r)) :
    r.length ≤ input.length := by
  unfold decodeRecord at h
  split at h
  · split at h
    case h_2 => exact absurd h (by simp)
    case h_1 key r1 heq1 =>
      split at h
      case h_2 => exact absurd h (by simp)
      case h_1 value r2 heq2 =>
        simp only [Except.ok.injEq, Prod.mk.injEq] at h
        rw [← h.2]
        exact Nat.le_trans (GetLengthPrefixedSlice_length_le _ _ _ heq2)
          (GetLengthPrefixedSlice_length_le _ _ _ heq1)
  · split at h
    · split at h
      case h_2 => exact absurd h (by simp)
      case h_1 key r1 heq1 =>
        simp only [Except.ok.injEq, Prod.mk.injEq] at h
        rw [← h.2]
        exact GetLengthPrefixedSlice_length_le _ _ _ heq1
    · split at h
      · split at h
        case h_2 => exact absurd h (by simp)
        case h_1 key r1 heq1 =>
          split at h
          case h_2 => exact absurd h (by simp)
          case h_1 expiry r2 heq2 =>
            split at h
            case h_2 => exact absurd h (by simp)
            case h_1 value r3 heq3 =>
              simp only [Except.ok.injEq, Prod.mk.injEq] at h
              rw [← h.2]
              refine Nat.le_trans (GetLengthPrefixedSlice_length_le _ _ _ heq3) ?_
              refine Nat.le_trans (getVarint_length_le 63 64 _ 0 0 _ _ heq2) ?_
              exact GetLengthPrefixedSlice_length_le _ _ _ heq1
      · exact absurd h (by simp)

theorem decodeRecord_append (tag : Nat) (input : List Nat) (c : HandlerCall)
    (r t : List Nat) (h : decodeRecord tag input = Except.ok (c, r)) :
    decodeRecord tag (input ++ t) = Except.ok (c, r ++ t) := by
  unfold decodeRecord at h ⊢
  split at h
  · split at h
    case h_2 => exact absurd h (by simp)
    case h_1 key r1 heq1 =>
      split at h
      case h_2 => exact absurd h (by simp)
      case h_1 value r2 heq2 =>
        simp only [Except.ok.injEq, Prod.mk.injEq] at h
        rw [if_pos (by assumption), GetLengthPrefixedSlice_append _ _ _ t heq1]
        dsimp only
        rw [GetLengthPrefixedSlice_append _ _ _ t heq2]
        simp [h.1, ← h.2]
  · split at h
    · split at h
      case h_2 => exact absurd h (by simp)
      case h_1 key r1 heq1 =>
        simp only [Except.ok.injEq, Prod.mk.injEq] at h
        rw [if_neg (by assumption), if_pos (by assumption),
          GetLengthPrefixedSlice_append _ _ _ t heq1]
        simp [h.1, ← h.2]
    · split at h
      · split at h
        case h_2 => exact absurd h (by simp)
        case h_1 key r1 heq1 =>
          split at h
          case h_2 => exact absurd h (by simp)
          case h_1 expiry r2 heq2 =>
            split at h
            case h_2 => exact absurd h (by simp)
            case h_1 value r3 heq3 =>
              simp only [Except.ok.injEq, Prod.mk.injEq] at h
              rw [if_neg (by assumption), if_neg (by assumption), if_pos (by assumption),
                GetLengthPrefixedSlice_append _ _ _ t heq1]
              have h64 : GetVarint64 (r1 ++ t) = some (expiry, r2 ++ t) := by
                unfold GetVarint64 at heq2 ⊢
                exact getVarint_append 63 64 r1 0 0 expiry r2 t heq2
              dsimp only
              rw [h64]
              dsimp only
              rw [GetLengthPrefixedSlice_append _ _ _ t heq3]
              simp [h.1, ← h.2]
      · exact absurd h (by simp)

theorem iterateLoop_nil : iterateLoop [] = (Status.ok, []) := by
  simp [iterateLoop]

theorem iterateLoop_cons_ok (b : Nat) (rest : List Nat) (c : HandlerCall)
    (r : List Nat) (h : decodeRecord (b % 256) rest = Except.ok (c, r)) :
    iterateLoop (b :: rest) = ((iterateLoop r).1, c :: (iterateLoop r).2) := by
  rw [iterateLoop]
  split
  case h_1 e heq => rw [h] at heq; exact absurd heq (by simp)
  case h_2 c' r' heq =>
    rw [h] at heq
    simp only [Except.ok.injEq, Prod.mk.injEq] at heq
    rw [heq.1, heq.2]

theorem iterateLoop_cons_err (b : Nat) (rest : List Nat) (e : CorruptReason)
    (h : decodeRecord (b % 256) rest = Except.error e) :
    iterateLoop (b :: rest) = (Status.Corruption e, []) := by
  rw [iterateLoop]
  split
  case h_1 e' heq =>
    rw [h] at heq
    simp only [Except.error.injEq] at heq
    rw [heq]
  case h_2 c' r' heq => rw [h] at heq; exact absurd heq (by simp)

theorem iterateLoop_encodeOp (op : Op) (hwf : Op.wf op) (t : List Nat) :
    iterateLoop (encodeOp op ++ t) =
      ((iterateLoop t).1, expectedCall op :: (iterateLoop t).2) := by
  cases op with
  | del key =>
    have hk : key.length < 2 ^ 32 := hwf
    have hbytes : encodeOp (Op.del key) ++ t
        = 0 :: (PutLengthPrefixedSlice key ++ t) := by
      simp [encodeOp, deleteRecord, kTypeDeletion]
    have hd : decodeRecord (0 % 256) (PutLengthPrefixedSlice key ++ t)
        = Except.ok (HandlerCall.Delete key, t) := by
      rw [show (0:Nat) % 256 = 0 by norm_num]
      unfold decodeRecord
      rw [if_neg (by decide), if_pos (by decide),
        GetLengthPrefixedSlice_roundtrip key t hk]
    rw [hbytes, iterateLoop_cons_ok 0 _ _ _ hd]
    simp [expectedCall]
  | put key value meta now =>
    obtain ⟨htype, hexp, hnow, hklen, hvlen⟩ := hwf
    rcases htype with ht | ht | ht
    · have hbytes : encodeOp (Op.put key value meta now) ++ t
          = 1 :: (PutLengthPrefixedSlice key ++ (PutLengthPrefixedSlice value ++ t)) := by
        simp [encodeOp, putRecord, ht, kTypeValue, kTypeValueWriteTime,
          kTypeValueExplicitExpiry]
      have hd : decodeRecord (1 % 256)
          (PutLengthPrefixedSlice key ++ (PutLengthPrefixedSlice value ++ t))
          = Except.ok (HandlerCall.Put key value kTypeValue 0, t) := by
        rw [show (1:Nat) % 256 = 1 by norm_num]
        unfold decodeRecord
        rw [if_pos (by decide), GetLengthPrefixedSlice_roundtrip key _ hklen]
        dsimp only
        rw [GetLengthPrefixedSlice_roundtrip value t hvlen]
      rw [hbytes, iterateLoop_cons_ok 1 _ _ _ hd]
      simp [expectedCall, ht, kTypeValue]
    · by_cases hz : meta.m_Expiry = 0
      · have hbytes : encodeOp (Op.put key value meta now) ++ t
            = 2 :: (PutLengthPrefixedSlice key ++ (putVarint now ++
              (PutLengthPrefixedSlice value ++ t))) := by
          simp [encodeOp, putRecord, ht, hz, kTypeValue, kTypeValueWriteTime,
            kTypeValueExplicitExpiry,
            Nat.mod_eq_of_lt (show now < 18446744073709551616 by omega)]
        have hd : decodeRecord (2 % 256)
            (PutLengthPrefixedSlice key ++ (putVarint now ++
              (PutLengthPrefixedSlice value ++ t)))
            = Except.ok (HandlerCall.Put key value 2 now, t) := by
          rw [show (2:Nat) % 256 = 2 by norm_num]
          unfold decodeRecord
          rw [if_neg (by decide), if_neg (by decide), if_pos (by decide),
            GetLengthPrefixedSlice_roundtrip key _ hklen]
          dsimp only
          rw [GetVarint64_putVarint now hnow _]
          dsimp only
          rw [GetLengthPrefixedSlice_roundtrip value t hvlen]
        rw [hbytes, iterateLoop_cons_ok 2 _ _ _ hd]
        simp [expectedCall, ht, hz, kTypeValue, kTypeValueWriteTime]
      · have hbytes : encodeOp (Op.put key value meta now) ++ t
            = 2 :: (PutLengthPrefixedSlice key ++ (putVarint meta.m_Expiry ++
              (PutLengthPrefixedSlice value ++ t))) := by
          simp [encodeOp, putRecord, ht, hz, kTypeValue, kTypeValueWriteTime,
            kTypeValueExplicitExpiry,
            Nat.mod_eq_of_lt (show meta.m_Expiry < 18446744073709551616 by omega)]
        have hd : decodeRecord (2 % 256)
            (PutLengthPrefixedSlice key ++ (putVarint meta.m_Expiry ++
              (PutLengthPrefixedSlice value ++ t)))
            = Except.ok (HandlerCall.Put key value 2 meta.m_Expiry, t) := by
          rw [show (2:Nat) % 256 = 2 by norm_num]
          unfold decodeRecord
          rw [if_neg (by decide), if_neg (by decide), if_pos (by decide),
            GetLengthPrefixedSlice_roundtrip key _ hklen]
          dsimp only
          rw [GetVarint64_putVarint meta.m_Expiry hexp _]
          dsimp only
          rw [GetLengthPrefixedSlice_roundtrip value t hvlen]
        rw [hbytes, iterateLoop_cons_ok 2 _ _ _ hd]
        simp [expectedCall, ht, hz, kTypeValue, kTypeValueWriteTime]
    · have hbytes : encodeOp (Op.put key value meta now) ++ t
          = 3 :: (PutLengthPrefixedSlice key ++ (putVarint meta.m_Expiry ++
            (PutLengthPrefixedSlice value ++ t))) := by
        simp [encodeOp, putRecord, ht, kTypeValue, kTypeValueWriteTime,
          kTypeValueExplicitExpiry,
          Nat.mod_eq_of_lt (show meta.m_Expiry < 18446744073709551616 by omega)]
      have hd : decodeRecord (3 % 256)
          (PutLengthPrefixedSlice key ++ (putVarint meta.m_Expiry ++
            (PutLengthPrefixedSlice value ++ t)))
          = Except.ok (HandlerCall.Put key value 3 meta.m_Expiry, t) := by
        rw [show (3:Nat) % 256 = 3 by norm_num]
        unfold decodeRecord
        rw [if_neg (by decide), if_neg (by decide), if_pos (by decide),
          GetLengthPrefixedSlice_roundtrip key _ hklen]
        dsimp only
        rw [GetVarint64_putVarint meta.m_Expiry hexp _]
        dsimp only
        rw [GetLengthPrefixedSlice_roundtrip value t hvlen]
      rw [hbytes, iterateLoop_cons_ok 3 _ _ _ hd]
      simp [expectedCall, ht, kTypeValue, kTypeValueWriteTime, kTypeValueExplicitExpiry]

theorem iterateLoop_opsData (ops : List Op) (hwf : ∀ op ∈ ops, Op.wf op) :
    iterateLoop (opsData ops) = (Status.ok, ops.map expectedCall) := by
  induction ops with
  | nil => simp [opsData, iterateLoop_nil]
  | cons op rest ih =>
    have h1 : opsData (op :: rest) = encodeOp op ++ opsData rest := by
      simp [opsData]
    rw [h1, iterateLoop_encodeOp op (hwf op (by simp)) (opsData rest),
      ih (fun o ho => hwf o (by simp [ho]))]
    simp

theorem decodeFixed32_encodeFixed32 (n : Nat) (t : List Nat) :
    decodeFixed32 (encodeFixed32 n ++ t) = n % 2 ^ 32 := by
  simp only [decodeFixed32, encodeFixed32, List.cons_append, List.nil_append,
    List.getD_cons_zero, List.getD_cons_succ]
  omega

theorem encodeFixed32_mod (n : Nat) : encodeFixed32 (n % 2 ^ 32) = encodeFixed32 n := by
  simp only [encodeFixed32, List.cons.injEq, and_true]
  refine ⟨?_, ?_, ?_, ?_⟩ <;> omega

theorem decodeFixed64_encodeFixed64 (n : Nat) (t : List Nat) :
    decodeFixed64 (encodeFixed64 n ++ t) = n % 2 ^ 64 := by
  simp only [decodeFixed64, encodeFixed64, List.cons_append, List.nil_append,
    List.getD_cons_zero, List.getD_cons_succ]
  omega

theorem applyOp_rep (s8 : List Nat) (hs : s8.length = 8) (c : Nat) (data : List Nat)
    (op : Op) :
    applyOp ⟨s8 ++ encodeFixed32 c ++ data⟩ op
      = ⟨s8 ++ encodeFixed32 (c + 1) ++ (data ++ encodeOp op)⟩ := by
  have hcount : WriteBatchInternal.Count ⟨s8 ++ encodeFixed32 c ++ data⟩ = c % 2 ^ 32 := by
    unfold WriteBatchInternal.Count
    show decodeFixed32 (List.drop 8 (s8 ++ encodeFixed32 c ++ data)) = c % 2 ^ 32
    rw [List.append_assoc, List.drop_left' hs]
    exact decodeFixed32_encodeFixed32 c data
  have h12 : (s8 ++ encodeFixed32 c).length = 12 := by
    simp [encodeFixed32, hs]
  have hsetc : ∀ n, WriteBatchInternal.SetCount ⟨s8 ++ encodeFixed32 c ++ data⟩ n
      = ⟨s8 ++ encodeFixed32 n ++ data⟩ := by
    intro n
    unfold WriteBatchInternal.SetCount
    congr 1
    show List.take 8 (s8 ++ encodeFixed32 c ++ data) ++ encodeFixed32 n ++
        List.drop 12 (s8 ++ encodeFixed32 c ++ data) = s8 ++ encodeFixed32 n ++ data
    rw [List.append_assoc s8, List.take_left' hs, ← List.append_assoc s8,
      List.drop_left' h12]
  have henc : encodeFixed32 (c % 2 ^ 32 + 1) = encodeFixed32 (c + 1) := by
    rw [← encodeFixed32_mod (c % 2 ^ 32 + 1), ← encodeFixed32_mod (c + 1)]
    congr 1
    omega
  cases op with
  | put key value meta now =>
    show (⟨(WriteBatchInternal.SetCount _ (WriteBatchInternal.Count _ + 1)).rep ++
      putRecord key value meta now⟩ : WriteBatch) = _
    rw [hcount, hsetc, henc]
    congr 1
    simp [encodeOp, List.append_assoc]
  | del key =>
    show (⟨(WriteBatchInternal.SetCount _ (WriteBatchInternal.Count _ + 1)).rep ++
      deleteRecord key⟩ : WriteBatch) = _
    rw [hcount, hsetc, henc]
    congr 1
    simp [encodeOp, List.append_assoc]

theorem applyOps_rep (ops : List Op) : ∀ (s8 : List Nat), s8.length = 8 →
    ∀ (c : Nat) (data : List Nat),
    (applyOps ⟨s8 ++ encodeFixed32 c ++ data⟩ ops).rep
      = s8 ++ encodeFixed32 (c + ops.length) ++ (data ++ opsData ops) := by
  induction ops with
  | nil =>
    intro s8 hs c data
    simp [applyOps, opsData]
  | cons op rest ih =>
    intro s8 hs c data
    show (applyOps (applyOp _ op) rest).rep = _
    rw [applyOp_rep s8 hs c data op, ih s8 hs (c + 1) (data ++ encodeOp op)]
    have hc : c + 1 + rest.length = c + (op :: rest).length := by
      simp [List.length_cons]
      omega
    rw [hc]
    simp [opsData, List.append_assoc]

theorem applyOps_clearBatch_rep (ops : List Op) :
    (applyOps clearBatch ops).rep
      = List.replicate 8 0 ++ encodeFixed32 ops.length ++ opsData ops := by
  have hclear : clearBatch = ⟨List.replicate 8 0 ++ encodeFixed32 0 ++ []⟩ := by rfl
  rw [hclear, applyOps_rep ops (List.replicate 8 0) (by simp) 0 []]
  simp

theorem decodeFixed32_lt (l : List Nat) : decodeFixed32 l < 2 ^ 32 := by
  unfold decodeFixed32
  have h0 : l.getD 0 0 % 256 < 256 := Nat.mod_lt _ (by omega)
  have h1 : l.getD 1 0 % 256 < 256 := Nat.mod_lt _ (by omega)
  have h2 : l.getD 2 0 % 256 < 256 := Nat.mod_lt _ (by omega)
  have h3 : l.getD 3 0 % 256 < 256 := Nat.mod_lt _ (by omega)
  omega

theorem iterateLoop_length_le (l : List Nat) : (iterateLoop l).2.length ≤ l.length := by
  have main : ∀ (n : Nat) (l : List Nat), l.length ≤ n →
      (iterateLoop l).2.length ≤ l.length := by
    intro n
    induction n with
    | zero =>
      intro l hl
      have hnil : l = [] := List.eq_nil_of_length_eq_zero (by omega)
      subst hnil
      simp [iterateLoop_nil]
    | succ n ih =>
      intro l hl
      cases l with
      | nil => simp [iterateLoop_nil]
      | cons b rest =>
        cases hd : decodeRecord (b % 256) rest with
        | error e => rw [iterateLoop_cons_err b rest e hd]; simp
        | ok cr =>
          obtain ⟨c, r⟩ := cr
          rw [iterateLoop_cons_ok b rest c r hd]
          have hr := decodeRecord_length_le _ _ _ _ hd
          have hrec := ih r (by simp at hl; omega)
          simp only [List.length_cons]
          omega
  exact main l.length l (le_refl _)

theorem iterateLoop_append (l : List Nat) (cs : List HandlerCall)
    (h : iterateLoop l = (Status.ok, cs)) (t : List Nat) :
    iterateLoop (l ++ t) = ((iterateLoop t).1, cs ++ (iterateLoop t).2) := by
  have main : ∀ (n : Nat) (l : List Nat) (cs : List HandlerCall), l.length ≤ n →
      iterateLoop l = (Status.ok, cs) → ∀ t,
      iterateLoop (l ++ t) = ((iterateLoop t).1, cs ++ (iterateLoop t).2) := by
    intro n
    induction n with
    | zero =>
      intro l cs hl h t
      have hnil : l = [] := List.eq_nil_of_length_eq_zero (by omega)
      subst hnil
      rw [iterateLoop_nil] at h
      simp only [Prod.mk.injEq, true_and] at h
      simp [← h]
    | succ n ih =>
      intro l cs hl h t
      cases l with
      | nil =>
        rw [iterateLoop_nil] at h
        simp only [Prod.mk.injEq, true_and] at h
        simp [← h]
      | cons b rest =>
        cases hd : decodeRecord (b % 256) rest with
        | error e =>
          rw [iterateLoop_cons_err b rest e hd] at h
          exact absurd h (by simp)
        | ok cr =>
          obtain ⟨c, r⟩ := cr
          rw [iterateLoop_cons_ok b rest c r hd] at h
          simp only [Prod.mk.injEq] at h
          have hrok : iterateLoop r = (Status.ok, (iterateLoop r).2) := by
            rw [Prod.ext_iff]
            exact ⟨h.1, rfl⟩
          have hr := decodeRecord_length_le _ _ _ _ hd
          have hrec := ih r (iterateLoop r).2 (by simp at hl; omega) hrok t
          show iterateLoop (b :: (rest ++ t)) = _
          rw [iterateLoop_cons_ok b (rest ++ t) c (r ++ t)
            (decodeRecord_append _ _ _ _ t hd), hrec]
          simp [← h.2]

  exact main l.length l cs (le_refl _) h t

theorem Iterate_ok_inv (b : WriteBatch) (ev : List HandlerCall)
    (h : b.Iterate = (Status.ok, ev)) :
    kHeader ≤ b.rep.length ∧ iterateLoop (b.rep.drop kHeader) = (Status.ok, ev) ∧
    ev.length = WriteBatchInternal.Count b := by
  unfold WriteBatch.Iterate at h
  split at h
  case isTrue hlen => exact absurd h (by simp)
  case isFalse hlen =>
    rcases hp : iterateLoop (b.rep.drop kHeader) with ⟨s, cs⟩
    rw [hp] at h
    dsimp only at h
    cases s with
    | ok =>
      by_cases hcnt : cs.length = WriteBatchInternal.Count b
      · rw [if_neg (not_not_intro hcnt)] at h
        simp only [Prod.mk.injEq, true_and] at h
        subst h
        exact ⟨by omega, rfl, hcnt⟩
      · rw [if_pos hcnt] at h
        exact absurd h (by simp)
    | Corruption r => exact absurd h (by simp)

theorem MemTableInserter_run_getElem (cb : Option (List Nat → List Nat → Nat → Nat → Nat × Nat)) :
    ∀ (calls : List HandlerCall) (seq i : Nat) (e : MemEntry),
    (MemTableInserter.run cb seq calls)[i]? = some e → seq + i < 2 ^ 64 →
    e.seq = seq + i ∧
    (∀ k, calls[i]? = some (HandlerCall.Delete k) →
      e = ⟨seq + i, kTypeDeletion, k, [], 0⟩) := by
  intro calls
  induction calls with
  | nil =>
    intro seq i e h _
    simp [MemTableInserter.run] at h
  | cons c rest ih =>
    intro seq i e h hlt
    have hmod : (seq + 1) % 2 ^ 64 = seq + 1 ∨ i = 0 := by
      cases i with
      | zero => exact Or.inr rfl
      | succ i' => exact Or.inl (Nat.mod_eq_of_lt (by omega))
    cases c with
    | Put k v ty ex =>
      cases i with
      | zero =>
        simp only [MemTableInserter.run, List.getElem?_cons_zero, Option.some.injEq] at h
        refine ⟨by rw [← h]; simp, ?_⟩
        intro k' hk'
        simp at hk'
      | succ i' =>
        simp only [MemTableInserter.run, List.getElem?_cons_succ] at h ⊢
        have hm : (seq + 1) % 2 ^ 64 = seq + 1 := Nat.mod_eq_of_lt (by omega)
        rw [hm] at h
        have hrec := ih (seq + 1) i' e h (by omega)
        refine ⟨by rw [hrec.1]; omega, ?_⟩
        intro k' hk'
        rw [hrec.2 k' hk']
        simp only [MemEntry.mk.injEq, and_true, true_and]
        omega
    | Delete k =>
      cases i with
      | zero =>
        simp only [MemTableInserter.run, List.getElem?_cons_zero, Option.some.injEq] at h
        refine ⟨by rw [← h]; simp, ?_⟩
        intro k' hk'
        simp only [List.getElem?_cons_zero, Option.some.injEq, HandlerCall.Delete.injEq] at hk'
        rw [← h, ← hk']
        simp
      | succ i' =>
        simp only [MemTableInserter.run, List.getElem?_cons_succ] at h ⊢
        have hm : (seq + 1) % 2 ^ 64 = seq + 1 := Nat.mod_eq_of_lt (by omega)
        rw [hm] at h
        have hrec := ih (seq + 1) i' e h (by omega)
        refine ⟨by rw [hrec.1]; omega, ?_⟩
        intro k' hk'
        rw [hrec.2 k' hk']
        simp only [MemEntry.mk.injEq, and_true, true_and]
        omega

theorem Iterate_applyOps_clearBatch (ops : List Op) (hwf : ∀ op ∈ ops, Op.wf op) :
    (applyOps clearBatch ops).Iterate.2 = ops.map expectedCall ∧
    (ops.length < 2 ^ 32 → (applyOps clearBatch ops).Iterate.1 = Status.ok) := by
  have hrep := applyOps_clearBatch_rep ops
  have h12 : (List.replicate 8 0 ++ encodeFixed32 ops.length).length = 12 := by
    simp [encodeFixed32]
  have hlen : (applyOps clearBatch ops).rep.length = 12 + (opsData ops).length := by
    rw [hrep]
    simp [encodeFixed32]
    omega
  have hdrop : (applyOps clearBatch ops).rep.drop kHeader = opsData ops := by
    rw [hrep]
    show List.drop 12 (List.replicate 8 0 ++ encodeFixed32 ops.length ++ opsData ops)
      = opsData ops
    exact List.drop_left' h12
  have hcount : WriteBatchInternal.Count (applyOps clearBatch ops)
      = ops.length % 2 ^ 32 := by
    unfold WriteBatchInternal.Count
    rw [hrep, List.append_assoc]
    rw [List.drop_left' (by simp : (List.replicate 8 (0:Nat)).length = 8)]
    exact decodeFixed32_encodeFixed32 _ _
  have hloop := iterateLoop_opsData ops hwf
  have hnotsmall : ¬ ((applyOps clearBatch ops).rep.length < kHeader) := by
    rw [hlen]
    unfold kHeader
    omega
  unfold WriteBatch.Iterate
  rw [if_neg hnotsmall, hdrop, hloop]
  dsimp only
  constructor
  · split <;> simp
  · intro hsmall
    rw [if_neg (by
      rw [hcount, List.length_map, Nat.mod_eq_of_lt hsmall]
      omega)]

theorem GetLPS_take_cases (s X : List Nat) (hs : s.length < 2 ^ 32) (j : Nat) :
    GetLengthPrefixedSlice ((PutLengthPrefixedSlice s ++ X).take j) = none ∨
    (∃ j', j = (PutLengthPrefixedSlice s).length + j' ∧
      GetLengthPrefixedSlice ((PutLengthPrefixedSlice s ++ X).take j)
        = some (s, X.take j')) := by
  by_cases h : j < (PutLengthPrefixedSlice s).length
  · left
    rw [List.take_append_of_le_length (le_of_lt h)]
    exact GetLengthPrefixedSlice_take_none s hs j h
  · right
    refine ⟨j - (PutLengthPrefixedSlice s).length, by omega, ?_⟩
    rw [List.take_append_eq_append_take, List.take_of_length_le (by omega)]
    exact GetLengthPrefixedSlice_roundtrip s _ hs

theorem GetVarint64_take_cases (v : Nat) (hv : v < 2 ^ 64) (X : List Nat) (j : Nat) :
    GetVarint64 ((putVarint v ++ X).take j) = none ∨
    (∃ j', j = (putVarint v).length + j' ∧
      GetVarint64 ((putVarint v ++ X).take j) = some (v, X.take j')) := by
  by_cases h : j < (putVarint v).length
  · left
    rw [List.take_append_of_le_length (le_of_lt h)]
    unfold GetVarint64
    exact getVarint_putVarint_take 63 64 v j h 0 0
  · right
    refine ⟨j - (putVarint v).length, by omega, ?_⟩
    rw [List.take_append_eq_append_take, List.take_of_length_le (by omega)]
    exact GetVarint64_putVarint v hv _

theorem iterateLoop_take_encodeOp (op : Op) (hwf : Op.wf op) (j : Nat)
    (h0 : 0 < j) (hj : j < (encodeOp op).length) :
    ∃ r, (iterateLoop ((encodeOp op).take j)).1 = Status.Corruption r := by
  obtain ⟨j', rfl⟩ : ∃ j', j = j' + 1 := ⟨j - 1, by omega⟩
  cases op with
  | del key =>
    have hk : key.length < 2 ^ 32 := hwf
    have hshape : encodeOp (Op.del key) = 0 :: PutLengthPrefixedSlice key := by
      simp [encodeOp, deleteRecord, kTypeDeletion]
    rw [hshape] at hj ⊢
    rw [List.take_succ_cons]
    have hj' : j' < (PutLengthPrefixedSlice key).length := by
      simp only [List.length_cons] at hj
      omega
    have hd : decodeRecord (0 % 256) ((PutLengthPrefixedSlice key).take j')
        = Except.error CorruptReason.badDelete := by
      rw [show (0:Nat) % 256 = 0 by norm_num]
      unfold decodeRecord
      rw [if_neg (by decide), if_pos (by decide),
        GetLengthPrefixedSlice_take_none key hk j' hj']
    rw [iterateLoop_cons_err _ _ _ hd]
    exact ⟨_, rfl⟩
  | put key value meta now =>
    obtain ⟨htype, hexp, hnow, hklen, hvlen⟩ := hwf
    rcases htype with ht | ht | ht
    · have hshape : encodeOp (Op.put key value meta now)
          = 1 :: (PutLengthPrefixedSlice key ++ PutLengthPrefixedSlice value) := by
        simp [encodeOp, putRecord, ht, kTypeValue, kTypeValueWriteTime,
          kTypeValueExplicitExpiry]
      rw [hshape] at hj ⊢
      rw [List.take_succ_cons]
      have hlen0 : j' < (PutLengthPrefixedSlice key).length +
          (PutLengthPrefixedSlice value).length := by
        simp only [List.length_cons, List.length_append] at hj
        omega
      have hd : decodeRecord (1 % 256)
          ((PutLengthPrefixedSlice key ++ PutLengthPrefixedSlice value).take j')
          = Except.error CorruptReason.badPut := by
        rw [show (1:Nat) % 256 = 1 by norm_num]
        unfold decodeRecord
        rw [if_pos (by decide)]
        rcases GetLPS_take_cases key (PutLengthPrefixedSlice value) hklen j'
          with hc | ⟨j2, hjeq, hc⟩
        · rw [hc]
        · rw [hc]
          dsimp only
          rw [GetLengthPrefixedSlice_take_none value hvlen j2 (by omega)]
      rw [iterateLoop_cons_err _ _ _ hd]
      exact ⟨_, rfl⟩
    · have he : (if meta.m_Expiry = 0 then now else meta.m_Expiry) < 2 ^ 64 := by
        split <;> omega
      have hshape : encodeOp (Op.put key value meta now)
          = 2 :: (PutLengthPrefixedSlice key ++
              (putVarint (if meta.m_Expiry = 0 then now else meta.m_Expiry) ++
                PutLengthPrefixedSlice value)) := by
        by_cases hz : meta.m_Expiry = 0 <;>
          simp [encodeOp, putRecord, ht, hz, kTypeValue, kTypeValueWriteTime,
            kTypeValueExplicitExpiry,
            Nat.mod_eq_of_lt (show now < 18446744073709551616 by omega),
            Nat.mod_eq_of_lt (show meta.m_Expiry < 18446744073709551616 by omega)]
      rw [hshape] at hj ⊢
      rw [List.take_succ_cons]
      have hlen0 : j' < (PutLengthPrefixedSlice key).length +
          ((putVarint (if meta.m_Expiry = 0 then now else meta.m_Expiry)).length +
            (PutLengthPrefixedSlice value).length) := by
        simp only [List.length_cons, List.length_append] at hj
        omega
      have hd : ∃ r, decodeRecord (2 % 256)
          ((PutLengthPrefixedSlice key ++
            (putVarint (if meta.m_Expiry = 0 then now else meta.m_Expiry) ++
              PutLengthPrefixedSlice value)).take j')
          = Except.error r := by
        rw [show (2:Nat) % 256 = 2 by norm_num]
        unfold decodeRecord
        rw [if_neg (by decide), if_neg (by decide), if_pos (by decide)]
        rcases GetLPS_take_cases key _ hklen j' with hc | ⟨j2, hjeq, hc⟩
        · rw [hc]
          exact ⟨_, rfl⟩
        · rw [hc]
          dsimp only
          rcases GetVarint64_take_cases _ he (PutLengthPrefixedSlice value) j2
            with hv | ⟨j3, hjeq3, hv⟩
          · rw [hv]
            exact ⟨_, rfl⟩
          · rw [hv]
            dsimp only
            rw [GetLengthPrefixedSlice_take_none value hvlen j3 (by omega)]
            exact ⟨_, rfl⟩
      obtain ⟨r, hd⟩ := hd
      rw [iterateLoop_cons_err _ _ _ hd]
      exact ⟨r, rfl⟩
    · have hshape : encodeOp (Op.put key value meta now)
          = 3 :: (PutLengthPrefixedSlice key ++
              (putVarint meta.m_Expiry ++ PutLengthPrefixedSlice value)) := by
        simp [encodeOp, putRecord, ht, kTypeValue, kTypeValueWriteTime,
          kTypeValueExplicitExpiry,
          Nat.mod_eq_of_lt (show meta.m_Expiry < 18446744073709551616 by omega)]
      rw [hshape] at hj ⊢
      rw [List.take_succ_cons]
      have hlen0 : j' < (PutLengthPrefixedSlice key).length +
          ((putVarint meta.m_Expiry).length + (PutLengthPrefixedSlice value).length) := by
        simp only [List.length_cons, List.length_append] at hj
        omega
      have hd : ∃ r, decodeRecord (3 % 256)
          ((PutLengthPrefixedSlice key ++
            (putVarint meta.m_Expiry ++ PutLengthPrefixedSlice value)).take j')
          = Except.error r := by
        rw [show (3:Nat) % 256 = 3 by norm_num]
        unfold decodeRecord
        rw [if_neg (by decide), if_neg (by decide), if_pos (by decide)]
        rcases GetLPS_take_cases key _ hklen j' with hc | ⟨j2, hjeq, hc⟩
        · rw [hc]
          exact ⟨_, rfl⟩
        · rw [hc]
          dsimp only
          rcases GetVarint64_take_cases meta.m_Expiry hexp (PutLengthPrefixedSlice value) j2
            with hv | ⟨j3, hjeq3, hv⟩
          · rw [hv]
            exact ⟨_, rfl⟩
          · rw [hv]
            dsimp only
            rw [GetLengthPrefixedSlice_take_none value hvlen j3 (by omega)]
            exact ⟨_, rfl⟩
      obtain ⟨r, hd⟩ := hd
      rw [iterateLoop_cons_err _ _ _ hd]
      exact ⟨r, rfl⟩

theorem recordBoundaries_head (pos : Nat) (ops : List Op) :
    pos ∈ recordBoundaries pos ops := by
  cases ops <;> simp [recordBoundaries]

theorem iterateLoop_take_corrupt (ops : List Op) (hwf : ∀ op ∈ ops, Op.wf op) :
    ∀ (pos j : Nat), 0 < j → j < (opsData ops).length →
    (pos + j) ∉ recordBoundaries pos ops →
    ∃ r, (iterateLoop ((opsData ops).take j)).1 = Status.Corruption r := by
  induction ops with
  | nil =>
    intro pos j h0 hj _
    simp [opsData] at hj
  | cons op rest ih =>
    intro pos j h0 hj hnb
    have hdata : opsData (op :: rest) = encodeOp op ++ opsData rest := by
      simp [opsData]
    have hnb2 : pos + j ∉ recordBoundaries (pos + (encodeOp op).length) rest := by
      intro hmem
      exact hnb (by simp [recordBoundaries, hmem])
    rw [hdata] at hj ⊢
    rcases lt_trichotomy j (encodeOp op).length with hlt | heq | hgt
    · rw [List.take_append_of_le_length (le_of_lt hlt)]
      exact iterateLoop_take_encodeOp op (hwf op (by simp)) j h0 hlt
    · exfalso
      apply hnb2
      rw [← heq]
      exact recordBoundaries_head _ _
    · rw [List.take_append_eq_append_take,
        List.take_of_length_le (by omega : (encodeOp op).length ≤ j)]
      rw [iterateLoop_encodeOp op (hwf op (by simp)) _]
      have hjr : j - (encodeOp op).length < (opsData rest).length := by
        simp only [List.length_append] at hj
        omega
      obtain ⟨r, hr⟩ := ih (fun o ho => hwf o (by simp [ho]))
        (pos + (encodeOp op).length) (j - (encodeOp op).length)
        (by omega) hjr
        (by
          have : pos + (encodeOp op).length + (j - (encodeOp op).length) = pos + j := by
            omega
          rw [this]
          exact hnb2)
      exact ⟨r, hr⟩

theorem Count_applyOps_clearBatch (ops : List Op) :
    WriteBatchInternal.Count (applyOps clearBatch ops) = ops.length % 2 ^ 32 := by
  unfold WriteBatchInternal.Count
  rw [applyOps_clearBatch_rep ops, List.append_assoc]
  rw [List.drop_left' (by simp : (List.replicate 8 (0:Nat)).length = 8)]
  exact decodeFixed32_encodeFixed32 _ _

theorem Count_applyOp (b : WriteBatch) (op : Op) (hb : 12 ≤ b.rep.length) :
    WriteBatchInternal.Count (applyOp b op)
      = (WriteBatchInternal.Count b + 1) % 2 ^ 32 := by
  have hsplit : (applyOp b op).rep
      = (WriteBatchInternal.SetCount b (WriteBatchInternal.Count b + 1)).rep
        ++ encodeOp op := by
    cases op <;> rfl
  have ht8 : (b.rep.take 8).length = 8 := by
    simp only [List.length_take]
    omega
  unfold WriteBatchInternal.Count
  rw [hsplit]
  unfold WriteBatchInternal.SetCount
  simp only [List.append_assoc]
  rw [List.drop_left' ht8]
  exact decodeFixed32_encodeFixed32 _ _

theorem decodeFixed64_first8 (A X Y : List Nat) (hA : A.length = 8) :
    decodeFixed64 (A ++ X) = decodeFixed64 (A ++ Y) := by
  unfold decodeFixed64
  rw [List.getD_append A X 0 0 (by omega), List.getD_append A X 0 1 (by omega),
    List.getD_append A X 0 2 (by omega), List.getD_append A X 0 3 (by omega),
    List.getD_append A X 0 4 (by omega), List.getD_append A X 0 5 (by omega),
    List.getD_append A X 0 6 (by omega), List.getD_append A X 0 7 (by omega),
    List.getD_append A Y 0 0 (by omega), List.getD_append A Y 0 1 (by omega),
    List.getD_append A Y 0 2 (by omega), List.getD_append A Y 0 3 (by omega),
    List.getD_append A Y 0 4 (by omega), List.getD_append A Y 0 5 (by omega),
    List.getD_append A Y 0 6 (by omega), List.getD_append A Y 0 7 (by omega)]

/-- C1, counterexample to the claim as stated: a put of key `"a"`, value
`"b"` whose metadata carries the plain value type and expiry 7 is replayed
by `Iterate` as a handler put with expiry 0, not with the expiry 7 of the
original call (the plain-value encoder writes no expiry field, and the
decoder replays plain values with expiry 0). -/
theorem C1_counterexample :
    (applyOps clearBatch [Op.put [97] [98] ⟨kTypeValue, 7⟩ 0]).Iterate
      = (Status.ok, [HandlerCall.Put [97] [98] kTypeValue 0]) ∧ (7 : Nat) ≠ 0 := by
  constructor
  · have h := Iterate_applyOps_clearBatch [Op.put [97] [98] ⟨kTypeValue, 7⟩ 0] (by decide)
    have h1 := h.1
    have h2 := h.2 (by norm_num)
    rcases hp : (applyOps clearBatch [Op.put [97] [98] ⟨kTypeValue, 7⟩ 0]).Iterate
      with ⟨s, cs⟩
    rw [hp] at h1 h2
    dsimp only at h1 h2
    subst h1
    subst h2
    rfl
  · norm_num

/-- C1 (amended): for every sequence of value-bearing puts and deletes on a
freshly cleared batch, `Iterate` invokes the handler once per call, in
order, with the same key, value and type; the replayed expiry is the one
the encoder wrote — the caller's expiry for an explicit-expiry put, the
encode-time clock for a write-time put with expiry 0, and 0 for a
plain-value put.  When the number of calls fits the 32-bit header count,
`Iterate` also returns OK. -/
theorem C1_replay (ops : List Op) (hwf : ∀ op ∈ ops, Op.wf op) :
    (applyOps clearBatch ops).Iterate.2 = ops.map expectedCall ∧
    (ops.length < 2 ^ 32 → (applyOps clearBatch ops).Iterate.1 = Status.ok) :=
  Iterate_applyOps_clearBatch ops hwf

/-- C1, witness: a write-time put with expiry 0 at clock 5 and a delete
replay in order as `Put` with expiry 5 and `Delete`, with an OK status. -/
theorem C1_replay_witness :
    (applyOps clearBatch
        [Op.put [97] [98] ⟨kTypeValueWriteTime, 0⟩ 5, Op.del [99]]).Iterate.2
      = [HandlerCall.Put [97] [98] kTypeValueWriteTime 5, HandlerCall.Delete [99]] ∧
    (applyOps clearBatch
        [Op.put [97] [98] ⟨kTypeValueWriteTime, 0⟩ 5, Op.del [99]]).Iterate.1
      = Status.ok := by
  have h := C1_replay [Op.put [97] [98] ⟨kTypeValueWriteTime, 0⟩ 5, Op.del [99]]
    (by decide)
  exact ⟨by rw [h.1]; rfl, h.2 (by norm_num)⟩

/-- C2: during `InsertInto`, the i-th decoded record is added to the index
with sequence number `Sequence(batch) + i` (the adapter starts at the
header sequence and bumps by one per record), and a decoded deletion with
key `k` is added as `(sequence + i, kTypeDeletion, k, empty value, expiry
0)`; this holds for any expiry-module callback, which deletes bypass. -/
theorem C2_insert_sequencing (b : WriteBatch)
    (cb : Option (List Nat → List Nat → Nat → Nat → Nat × Nat)) (i : Nat)
    (e : MemEntry)
    (hget : ((WriteBatchInternal.InsertInto b cb).2)[i]? = some e)
    (hover : WriteBatchInternal.Sequence b + i < 2 ^ 64) :
    e.seq = WriteBatchInternal.Sequence b + i ∧
    (∀ k, (b.Iterate.2)[i]? = some (HandlerCall.Delete k) →
      e = ⟨WriteBatchInternal.Sequence b + i, kTypeDeletion, k, [], 0⟩) :=
  MemTableInserter_run_getElem cb b.Iterate.2 (WriteBatchInternal.Sequence b) i e
    hget hover

/-- C2, witness: a batch with header sequence 100 and one delete record
inserts `(100, kTypeDeletion, key, empty, 0)` at position 0. -/
theorem C2_insert_sequencing_witness :
    (⟨100, kTypeDeletion, [97], [], 0⟩ : MemEntry).seq
      = WriteBatchInternal.Sequence
          (WriteBatchInternal.SetContents
            [100, 0, 0, 0, 0, 0, 0, 0, 1, 0, 0, 0, 0, 1, 97]) + 0 ∧
    (⟨100, kTypeDeletion, [97], [], 0⟩ : MemEntry).seq = 100 := by
  have h := C2_insert_sequencing
    (WriteBatchInternal.SetContents [100, 0, 0, 0, 0, 0, 0, 0, 1, 0, 0, 0, 0, 1, 97])
    none 0 ⟨100, kTypeDeletion, [97], [], 0⟩
    (by
      simp [WriteBatchInternal.InsertInto, WriteBatchInternal.SetContents,
        WriteBatchInternal.Sequence, decodeFixed64, WriteBatch.Iterate, iterateLoop,
        decodeRecord, GetLengthPrefixedSlice, GetVarint32, getVarint, kHeader,
        WriteBatchInternal.Count, decodeFixed32, kTypeDeletion, kTypeValue,
        kTypeValueWriteTime, kTypeValueExplicitExpiry, MemTableInserter.run])
    (by
      simp [WriteBatchInternal.Sequence, WriteBatchInternal.SetContents, decodeFixed64])
  exact ⟨h.1, by rw [h.1]; rfl⟩

/-- C3: each `Put` and each `Delete` increments the header count field by
exactly one (below the 32-bit wrap), and after `k` calls on a fresh batch
the count reads back as `k` for `k` within the 32-bit range. -/
theorem C3_count (b : WriteBatch) (op : Op) (ops : List Op)
    (hb : 12 ≤ b.rep.length) (hc : WriteBatchInternal.Count b + 1 < 2 ^ 32)
    (hk : ops.length < 2 ^ 32) :
    WriteBatchInternal.Count (applyOp b op) = WriteBatchInternal.Count b + 1 ∧
    WriteBatchInternal.Count (applyOps clearBatch ops) = ops.length := by
  refine ⟨?_, ?_⟩
  · rw [Count_applyOp b op hb, Nat.mod_eq_of_lt hc]
  · rw [Count_applyOps_clearBatch ops, Nat.mod_eq_of_lt hk]

/-- C3, witness: one delete on a fresh batch gives count 1; two calls give
count 2. -/
theorem C3_count_witness :
    WriteBatchInternal.Count (applyOp clearBatch (Op.del [])) = 1 ∧
    WriteBatchInternal.Count (applyOps clearBatch [Op.del [97], Op.del [98]]) = 2 := by
  have h := C3_count clearBatch (Op.del []) [Op.del [97], Op.del [98]]
    (by decide) (by decide) (by norm_num)
  have h0 : WriteBatchInternal.Count clearBatch = 0 := by decide
  exact ⟨by rw [h.1, h0], h.2⟩

/-- C4: truncating the serialized bytes of a batch built from well-formed
calls at any offset strictly inside the record region, not at a record
boundary, makes `Iterate` (run on the truncated bytes installed via
`SetContents`) return a corruption error. -/
theorem C4_truncation_corrupts (ops : List Op) (cut : Nat)
    (hwf : ∀ op ∈ ops, Op.wf op) (h12 : 12 ≤ cut)
    (hlt : cut < (applyOps clearBatch ops).rep.length)
    (hnb : cut ∉ recordBoundaries 12 ops) :
    ∃ r, (WriteBatchInternal.SetContents
        ((applyOps clearBatch ops).rep.take cut)).Iterate.1
      = Status.Corruption r := by
  have hrep := applyOps_clearBatch_rep ops
  have h12len : (List.replicate 8 0 ++ encodeFixed32 ops.length).length = 12 := by
    simp [encodeFixed32]
  have hlen : (applyOps clearBatch ops).rep.length = 12 + (opsData ops).length := by
    rw [hrep]
    simp [encodeFixed32]
    omega
  have hcutpos : 12 < cut := by
    rcases Nat.lt_or_ge 12 cut with h | h
    · exact h
    · have hc12 : cut = 12 := by omega
      subst hc12
      exact absurd (recordBoundaries_head 12 ops) hnb
  have h0 : 0 < cut - 12 := by omega
  have hjlen : cut - 12 < (opsData ops).length := by omega
  have htake : (applyOps clearBatch ops).rep.take cut
      = (List.replicate 8 0 ++ encodeFixed32 ops.length)
        ++ (opsData ops).take (cut - 12) := by
    rw [hrep, List.take_append_eq_append_take,
      List.take_of_length_le (by omega), h12len]
  obtain ⟨r, hr⟩ := iterateLoop_take_corrupt ops hwf 12 (cut - 12) h0 hjlen
    (by
      have hx : 12 + (cut - 12) = cut := by omega
      rw [hx]
      exact hnb)
  refine ⟨r, ?_⟩
  unfold WriteBatchInternal.SetContents WriteBatch.Iterate
  rw [if_neg (by
    rw [htake]
    simp only [List.length_append, List.length_take, h12len]
    unfold kHeader
    omega)]
  have hdrop : ((applyOps clearBatch ops).rep.take cut).drop kHeader
      = (opsData ops).take (cut - 12) := by
    rw [htake, show kHeader = 12 from rfl]
    exact List.drop_left' h12len
  rw [hdrop]
  rcases hp : iterateLoop ((opsData ops).take (cut - 12)) with ⟨s, cs⟩
  rw [hp] at hr
  dsimp only at hr ⊢
  rw [hr]

/-- C4, witness: the 15-byte batch holding one delete record, cut at offset
13 (inside the record), yields a corruption from `Iterate`. -/
theorem C4_truncation_corrupts_witness :
    ∃ r, (WriteBatchInternal.SetContents
        ((applyOps clearBatch [Op.del [97]]).rep.take 13)).Iterate.1
      = Status.Corruption r := by
  have hrep : (applyOps clearBatch [Op.del [97]]).rep
      = [0, 0, 0, 0, 0, 0, 0, 0, 1, 0, 0, 0, 0, 1, 97] := by
    simp [applyOps, applyOp, WriteBatch.Delete, clearBatch, WriteBatchInternal.SetCount,
      WriteBatchInternal.Count, decodeFixed32, encodeFixed32, deleteRecord,
      PutLengthPrefixedSlice, putVarint, kTypeDeletion, kHeader]
  have hbd : recordBoundaries 12 [Op.del [97]] = [12, 15] := by
    simp [recordBoundaries, encodeOp, deleteRecord, PutLengthPrefixedSlice, putVarint,
      kTypeDeletion]
  exact C4_truncation_corrupts [Op.del [97]] 13 (by decide) (by norm_num)
    (by rw [hrep]; norm_num) (by rw [hbd]; decide)

/-- C5: `Append(dst, src)` sets `dst`'s count field to `count(dst) +
count(src)`, appends `src`'s bytes from offset 12 onward to `dst`'s buffer
unchanged, and replaying the merged batch yields `dst`'s handler calls in
order followed by `src`'s, with an OK status (no re-tagging or
re-sequencing of either side's records). -/
theorem C5_append_replay (dst src : WriteBatch) (evD evS : List HandlerCall)
    (hD : dst.Iterate = (Status.ok, evD)) (hS : src.Iterate = (Status.ok, evS))
    (hcnt : WriteBatchInternal.Count dst + WriteBatchInternal.Count src < 2 ^ 32) :
    WriteBatchInternal.Count (WriteBatchInternal.Append dst src)
      = WriteBatchInternal.Count dst + WriteBatchInternal.Count src ∧
    (WriteBatchInternal.Append dst src).rep
      = (WriteBatchInternal.SetCount dst
          (WriteBatchInternal.Count dst + WriteBatchInternal.Count src)).rep
        ++ src.rep.drop 12 ∧
    (WriteBatchInternal.Append dst src).Iterate = (Status.ok, evD ++ evS) := by
  obtain ⟨hlenD, hloopD, hcntD⟩ := Iterate_ok_inv dst evD hD
  obtain ⟨hlenS, hloopS, hcntS⟩ := Iterate_ok_inv src evS hS
  rw [show kHeader = 12 from rfl] at hlenD hlenS hloopD hloopS
  have ht8 : (dst.rep.take 8).length = 8 := by
    simp only [List.length_take]
    omega
  have happ : (WriteBatchInternal.Append dst src).rep
      = dst.rep.take 8 ++ (encodeFixed32
          (WriteBatchInternal.Count dst + WriteBatchInternal.Count src)
        ++ (dst.rep.drop 12 ++ src.rep.drop 12)) := by
    simp [WriteBatchInternal.Append, WriteBatchInternal.SetCount, kHeader,
      List.append_assoc]
  have hcount : WriteBatchInternal.Count (WriteBatchInternal.Append dst src)
      = WriteBatchInternal.Count dst + WriteBatchInternal.Count src := by
    show decodeFixed32 ((WriteBatchInternal.Append dst src).rep.drop 8) = _
    rw [happ, List.drop_left' ht8, decodeFixed32_encodeFixed32, Nat.mod_eq_of_lt hcnt]
  refine ⟨hcount, by simp [WriteBatchInternal.Append, kHeader], ?_⟩
  have h12 : (dst.rep.take 8 ++ encodeFixed32
      (WriteBatchInternal.Count dst + WriteBatchInternal.Count src)).length = 12 := by
    simp only [List.length_append, ht8, encodeFixed32, List.length_cons, List.length_nil]
  have hdrop : (WriteBatchInternal.Append dst src).rep.drop kHeader
      = dst.rep.drop 12 ++ src.rep.drop 12 := by
    rw [show kHeader = 12 from rfl, happ, ← List.append_assoc]
    exact List.drop_left' h12
  have hlenapp : ¬ ((WriteBatchInternal.Append dst src).rep.length < kHeader) := by
    rw [show kHeader = 12 from rfl, happ]
    simp only [List.length_append, ht8]
    simp only [encodeFixed32, List.length_cons, List.length_nil]
    omega
  unfold WriteBatch.Iterate
  rw [if_neg hlenapp, hdrop, iterateLoop_append _ _ hloopD _, hloopS]
  dsimp only
  rw [if_neg (by
    rw [hcount]
    simp only [List.length_append, ne_eq, not_not]
    omega)]

/-- C5, witness: merging two one-delete batches gives count 2 and replays
both deletes in order. -/
theorem C5_append_replay_witness :
    WriteBatchInternal.Count (WriteBatchInternal.Append
        (WriteBatchInternal.SetContents [0, 0, 0, 0, 0, 0, 0, 0, 1, 0, 0, 0, 0, 1, 97])
        (WriteBatchInternal.SetContents [0, 0, 0, 0, 0, 0, 0, 0, 1, 0, 0, 0, 0, 1, 98]))
      = 2 ∧
    (WriteBatchInternal.Append
        (WriteBatchInternal.SetContents [0, 0, 0, 0, 0, 0, 0, 0, 1, 0, 0, 0, 0, 1, 97])
        (WriteBatchInternal.SetContents [0, 0, 0, 0, 0, 0, 0, 0, 1, 0, 0, 0, 0, 1, 98])).Iterate
      = (Status.ok, [HandlerCall.Delete [97], HandlerCall.Delete [98]]) := by
  have h := C5_append_replay
    (WriteBatchInternal.SetContents [0, 0, 0, 0, 0, 0, 0, 0, 1, 0, 0, 0, 0, 1, 97])
    (WriteBatchInternal.SetContents [0, 0, 0, 0, 0, 0, 0, 0, 1, 0, 0, 0, 0, 1, 98])
    [HandlerCall.Delete [97]] [HandlerCall.Delete [98]]
    (by
      simp [WriteBatch.Iterate, WriteBatchInternal.SetContents, iterateLoop, decodeRecord,
        GetLengthPrefixedSlice, GetVarint32, getVarint, kHeader, WriteBatchInternal.Count,
        decodeFixed32, kTypeDeletion, kTypeValue, kTypeValueWriteTime,
        kTypeValueExplicitExpiry])
    (by
      simp [WriteBatch.Iterate, WriteBatchInternal.SetContents, iterateLoop, decodeRecord,
        GetLengthPrefixedSlice, GetVarint32, getVarint, kHeader, WriteBatchInternal.Count,
        decodeFixed32, kTypeDeletion, kTypeValue, kTypeValueWriteTime,
        kTypeValueExplicitExpiry])
    (by decide)
  refine ⟨?_, h.2.2⟩
  rw [h.1]
  decide

/-- C6: `Put` with the write-time-expiry type and expiry 0 encodes the
clock value (`GetTimeMinutes()`, the `now` argument) as the record's expiry
field; `Put` with the explicit-expiry type encodes the caller's expiry
exactly, including 0; `Put` with the plain value type encodes no expiry
field at all. -/
theorem C6_put_expiry (b : WriteBatch) (key value : List Nat) (e now : Nat)
    (he : e < 2 ^ 64) (hnow : now < 2 ^ 64) :
    (b.Put key value ⟨kTypeValueWriteTime, 0⟩ now).rep
      = (WriteBatchInternal.SetCount b (WriteBatchInternal.Count b + 1)).rep
        ++ ([kTypeValueWriteTime] ++ PutLengthPrefixedSlice key ++ putVarint now
          ++ PutLengthPrefixedSlice value) ∧
    (b.Put key value ⟨kTypeValueExplicitExpiry, e⟩ now).rep
      = (WriteBatchInternal.SetCount b (WriteBatchInternal.Count b + 1)).rep
        ++ ([kTypeValueExplicitExpiry] ++ PutLengthPrefixedSlice key ++ putVarint e
          ++ PutLengthPrefixedSlice value) ∧
    (b.Put key value ⟨kTypeValue, e⟩ now).rep
      = (WriteBatchInternal.SetCount b (WriteBatchInternal.Count b + 1)).rep
        ++ ([kTypeValue] ++ PutLengthPrefixedSlice key
          ++ PutLengthPrefixedSlice value) := by
  refine ⟨?_, ?_, ?_⟩ <;>
    simp [WriteBatch.Put, putRecord, kTypeValue, kTypeValueWriteTime,
      kTypeValueExplicitExpiry, List.append_assoc,
      Nat.mod_eq_of_lt (show now < 18446744073709551616 by omega),
      Nat.mod_eq_of_lt (show e < 18446744073709551616 by omega)]

/-- C6, witness: the three encodings at concrete arguments. -/
theorem C6_put_expiry_witness :
    (clearBatch.Put [97] [98] ⟨kTypeValueWriteTime, 0⟩ 5).rep
      = (WriteBatchInternal.SetCount clearBatch
          (WriteBatchInternal.Count clearBatch + 1)).rep
        ++ ([kTypeValueWriteTime] ++ PutLengthPrefixedSlice [97] ++ putVarint 5
          ++ PutLengthPrefixedSlice [98]) ∧
    (clearBatch.Put [97] [98] ⟨kTypeValueExplicitExpiry, 0⟩ 5).rep
      = (WriteBatchInternal.SetCount clearBatch
          (WriteBatchInternal.Count clearBatch + 1)).rep
        ++ ([kTypeValueExplicitExpiry] ++ PutLengthPrefixedSlice [97] ++ putVarint 0
          ++ PutLengthPrefixedSlice [98]) ∧
    (clearBatch.Put [97] [98] ⟨kTypeValue, 0⟩ 5).rep
      = (WriteBatchInternal.SetCount clearBatch
          (WriteBatchInternal.Count clearBatch + 1)).rep
        ++ ([kTypeValue] ++ PutLengthPrefixedSlice [97]
          ++ PutLengthPrefixedSlice [98]) :=
  C6_put_expiry clearBatch [97] [98] 0 5 (by norm_num) (by norm_num)

/-- C7: `Iterate` is a total function of the buffer — the loop terminates
on every byte string because each iteration consumes at least the tag byte,
so the number of handler calls is bounded by the buffer length — and its
status is always either OK or a corruption error. -/
theorem C7_iterate_total (b : WriteBatch) :
    (b.Iterate.1 = Status.ok ∨ ∃ r, b.Iterate.1 = Status.Corruption r) ∧
    b.Iterate.2.length ≤ b.rep.length := by
  constructor
  · cases h : b.Iterate.1 with
    | ok => exact Or.inl rfl
    | Corruption r => exact Or.inr ⟨r, rfl⟩
  · have hle : (iterateLoop (b.rep.drop kHeader)).2.length ≤ b.rep.length :=
      le_trans (iterateLoop_length_le _) (by simp)
    unfold WriteBatch.Iterate
    split
    · simp
    · dsimp only
      rcases hp : iterateLoop (b.rep.drop kHeader) with ⟨s, cs⟩
      rw [hp] at hle
      dsimp only at hle
      cases s with
      | ok =>
        dsimp only
        split
        · exact hle
        · exact hle
      | Corruption r => exact hle

/-- C8: `Iterate` makes no atomicity guarantee — on a batch holding one
valid put record followed by a corrupt byte, it returns a corruption error
after the handler has already been invoked once, and that invocation is
kept in the call trace. -/
theorem C8_partial_replay :
    (WriteBatchInternal.SetContents
        ((clearBatch.Put [97] [49] ⟨kTypeValue, 0⟩ 0).rep ++ [200])).Iterate
      = (Status.Corruption CorruptReason.unknownTag,
         [HandlerCall.Put [97] [49] kTypeValue 0]) ∧
    (WriteBatchInternal.SetContents
        ((clearBatch.Put [97] [49] ⟨kTypeValue, 0⟩ 0).rep ++ [200])).Iterate.2 ≠ [] := by
  constructor
  · simp [WriteBatch.Put, clearBatch, WriteBatchInternal.SetCount, WriteBatchInternal.Count,
      WriteBatchInternal.SetContents, decodeFixed32, encodeFixed32, putRecord,
      PutLengthPrefixedSlice, putVarint, kTypeDeletion, kTypeValue, kTypeValueWriteTime,
      kTypeValueExplicitExpiry, kHeader, WriteBatch.Iterate, iterateLoop, decodeRecord,
      GetLengthPrefixedSlice, GetVarint32, getVarint]
  · simp [WriteBatch.Put, clearBatch, WriteBatchInternal.SetCount, WriteBatchInternal.Count,
      WriteBatchInternal.SetContents, decodeFixed32, encodeFixed32, putRecord,
      PutLengthPrefixedSlice, putVarint, kTypeDeletion, kTypeValue, kTypeValueWriteTime,
      kTypeValueExplicitExpiry, kHeader, WriteBatch.Iterate, iterateLoop, decodeRecord,
      GetLengthPrefixedSlice, GetVarint32, getVarint]

/-- C9: `Append(dst, src)` leaves `dst`'s header sequence (bytes 0..8)
unchanged — both as the decoded sequence number and as raw bytes — leaves
the bytes of `dst`'s record region in place (the merged region is `dst`'s
records then `src`'s), and of `dst`'s header modifies only the count field
(set to the 32-bit sum of both counts).  `src` is passed read-only: the
model's `Append` builds the result without modifying `src`. -/
theorem C9_append_frame (dst src : WriteBatch) (hd : 12 ≤ dst.rep.length) :
    WriteBatchInternal.Sequence (WriteBatchInternal.Append dst src)
      = WriteBatchInternal.Sequence dst ∧
    (WriteBatchInternal.Append dst src).rep.take 8 = dst.rep.take 8 ∧
    (WriteBatchInternal.Append dst src).rep.drop 12
      = dst.rep.drop 12 ++ src.rep.drop 12 ∧
    WriteBatchInternal.Count (WriteBatchInternal.Append dst src)
      = (WriteBatchInternal.Count dst + WriteBatchInternal.Count src) % 2 ^ 32 := by
  have ht8 : (dst.rep.take 8).length = 8 := by
    simp only [List.length_take]
    omega
  have happ : (WriteBatchInternal.Append dst src).rep
      = dst.rep.take 8 ++ (encodeFixed32
          (WriteBatchInternal.Count dst + WriteBatchInternal.Count src)
        ++ (dst.rep.drop 12 ++ src.rep.drop 12)) := by
    simp [WriteBatchInternal.Append, WriteBatchInternal.SetCount, kHeader,
      List.append_assoc]
  have h12 : (dst.rep.take 8 ++ encodeFixed32
      (WriteBatchInternal.Count dst + WriteBatchInternal.Count src)).length = 12 := by
    simp only [List.length_append, ht8, encodeFixed32, List.length_cons, List.length_nil]
  refine ⟨?_, ?_, ?_, ?_⟩
  · show decodeFixed64 (WriteBatchInternal.Append dst src).rep = decodeFixed64 dst.rep
    rw [happ]
    calc decodeFixed64 (dst.rep.take 8 ++ (encodeFixed32
            (WriteBatchInternal.Count dst + WriteBatchInternal.Count src)
          ++ (dst.rep.drop 12 ++ src.rep.drop 12)))
        = decodeFixed64 (dst.rep.take 8 ++ dst.rep.drop 8) :=
          decodeFixed64_first8 _ _ _ ht8
      _ = decodeFixed64 dst.rep := by rw [List.take_append_drop]
  · rw [happ, List.take_append_of_le_length (by omega), List.take_of_length_le (by omega)]
  · rw [happ, ← List.append_assoc]
    exact List.drop_left' h12
  · show decodeFixed32 ((WriteBatchInternal.Append dst src).rep.drop 8) = _
    rw [happ, List.drop_left' ht8]
    exact decodeFixed32_encodeFixed32 _ _

/-- C9, witness: appending a one-delete batch to a batch with sequence 300
keeps sequence 300, keeps the header bytes, concatenates the record
regions, and sums the counts. -/
theorem C9_append_frame_witness :
    WriteBatchInternal.Sequence (WriteBatchInternal.Append
        (WriteBatchInternal.SetContents [44, 1, 0, 0, 0, 0, 0, 0, 0, 0, 0, 0])
        (WriteBatchInternal.SetContents [0, 0, 0, 0, 0, 0, 0, 0, 1, 0, 0, 0, 0, 1, 98]))
      = WriteBatchInternal.Sequence
          (WriteBatchInternal.SetContents [44, 1, 0, 0, 0, 0, 0, 0, 0, 0, 0, 0]) ∧
    WriteBatchInternal.Sequence (WriteBatchInternal.Append
        (WriteBatchInternal.SetContents [44, 1, 0, 0, 0, 0, 0, 0, 0, 0, 0, 0])
        (WriteBatchInternal.SetContents [0, 0, 0, 0, 0, 0, 0, 0, 1, 0, 0, 0, 0, 1, 98]))
      = 300 ∧
    WriteBatchInternal.Count (WriteBatchInternal.Append
        (WriteBatchInternal.SetContents [44, 1, 0, 0, 0, 0, 0, 0, 0, 0, 0, 0])
        (WriteBatchInternal.SetContents [0, 0, 0, 0, 0, 0, 0, 0, 1, 0, 0, 0, 0, 1, 98]))
      = 1 := by
  have h := C9_append_frame
    (WriteBatchInternal.SetContents [44, 1, 0, 0, 0, 0, 0, 0, 0, 0, 0, 0])
    (WriteBatchInternal.SetContents [0, 0, 0, 0, 0, 0, 0, 0, 1, 0, 0, 0, 0, 1, 98])
    (by decide)
  refine ⟨h.1, ?_, ?_⟩
  · rw [h.1]
    decide
  · rw [h.2.2.2]
    decide

/-- C10: `Put` writes `meta.m_Type` verbatim as the record's tag byte (a
`char` store) without validating it, and appends the value varstring
unconditionally for every type; consequently a `Put` carrying the deletion
type produces bytes that `Iterate` replays as a `Delete` of the key and
then fails with a corruption on the trailing value bytes, not as the
original put. -/
theorem C10_put_verbatim (b : WriteBatch) (key value : List Nat)
    (meta : KeyMetaData) (now : Nat) :
    (b.Put key value meta now).rep
      = (WriteBatchInternal.SetCount b (WriteBatchInternal.Count b + 1)).rep
        ++ ([meta.m_Type % 256] ++ PutLengthPrefixedSlice key
          ++ (if meta.m_Type = kTypeValueExplicitExpiry ∨ meta.m_Type = kTypeValueWriteTime
              then putVarint ((if meta.m_Type = kTypeValueWriteTime ∧ meta.m_Expiry = 0
                then now else meta.m_Expiry) % 2 ^ 64)
              else [])
          ++ PutLengthPrefixedSlice value) ∧
    (clearBatch.Put [97] [98] ⟨kTypeDeletion, 0⟩ 0).Iterate
      = (Status.Corruption CorruptReason.badPut, [HandlerCall.Delete [97]]) := by
  constructor
  · rfl
  · simp [WriteBatch.Put, clearBatch, WriteBatchInternal.SetCount, WriteBatchInternal.Count,
      decodeFixed32, encodeFixed32, putRecord, PutLengthPrefixedSlice, putVarint,
      kTypeDeletion, kTypeValue, kTypeValueWriteTime, kTypeValueExplicitExpiry, kHeader,
      WriteBatch.Iterate, iterateLoop, decodeRecord, GetLengthPrefixedSlice, GetVarint32,
      getVarint]

end LevelDB
